import Mathlib

/-!
# Verification of the DocForge page-range parser, range compactor and split/compress utilities

This file gives a shallow embedding of the page-selection logic of the DocForge
web application and proves the specification's claims about it.

The embedded code is:

* `parsePageRanges` — the page-range parser found in the split component
  (`src/unnamed/part_000`, function `parsePageRanges`);
* the consecutive-page grouping, naming and per-range document creation of
  `createSplitDocuments` (`src/utils/downloadUtils.ts`);
* the PDF compression-attempt fallback chain of `createProcessedDocument`
  (`src/utils/downloadUtils.ts`).

JavaScript string primitives (`split`, `trim`, `parseInt`, first-occurrence
`replace`) are modelled on `List Char`.  Modelling choices, each noted at the
definition it concerns:

* whitespace is the ASCII whitespace set (the JS definition also contains
  exotic Unicode space characters, which no claim depends on);
* `parseInt` is modelled with its radix-10 longest-digit-prefix semantics,
  including the `0x`/`0X` hexadecimal auto-detection and sign handling;
  the IEEE-754 rounding of astronomically long digit strings is not modelled
  (all uses only compare the parsed value with `0` and `totalPages`);
* `$`-escape sequences of `String.prototype.replace` are not modelled
  (the replacement strings produced by the code are decimal digits and `-`).
-/

/-- ASCII whitespace, as stripped by JavaScript `trim` and skipped by
`parseInt`.  (JS also strips some exotic Unicode space characters; no claim
depends on those.) -/
def isWS (c : Char) : Bool :=
  c = ' ' || c = '\t' || c = '\n' || c = '\r' || c = '\x0b' || c = '\x0c'

/-- JavaScript `String.prototype.trim` on a character list. -/
def trimChars (s : List Char) : List Char :=
  ((s.dropWhile isWS).reverse.dropWhile isWS).reverse

/-- JavaScript `String.prototype.split` with a one-character separator:
`"".split(sep) = [""]`, and every separator occurrence opens a new field. -/
def splitOnChar (sep : Char) : List Char → List (List Char)
  | [] => [[]]
  | c :: rest =>
    if c = sep then [] :: splitOnChar sep rest
    else
      match splitOnChar sep rest with
      | [] => [[c]]
      | t :: ts => (c :: t) :: ts

/-- `startsWithL s p` holds when `p` is an initial segment of `s`. -/
def startsWithL : List Char → List Char → Bool
  | _, [] => true
  | [], _ :: _ => false
  | c :: cs, p :: ps => c = p && startsWithL cs ps

/-- `hasSubstr pat s`: `pat` occurs contiguously somewhere in `s`. -/
def hasSubstr (pat : List Char) : List Char → Bool
  | [] => startsWithL [] pat
  | c :: rest => startsWithL (c :: rest) pat || hasSubstr pat rest

/-- JavaScript `String.prototype.replace` with a string pattern: replaces the
first occurrence of `pat` only, and returns the input unchanged when `pat`
does not occur.  (`$`-escapes in the replacement are not modelled; the code
only substitutes digit/hyphen strings.) -/
def replaceFirstL (pat rep : List Char) : List Char → List Char
  | [] => []
  | c :: rest =>
    if startsWithL (c :: rest) pat then rep ++ (c :: rest).drop pat.length
    else c :: replaceFirstL pat rep rest

/-- Value of a digit character in the given base, when it is one. -/
def digitVal (base : Nat) (c : Char) : Option Nat :=
  let v :=
    if '0' ≤ c ∧ c ≤ '9' then some (c.toNat - '0'.toNat)
    else if 'a' ≤ c ∧ c ≤ 'f' then some (c.toNat - 'a'.toNat + 10)
    else if 'A' ≤ c ∧ c ≤ 'F' then some (c.toNat - 'A'.toNat + 10)
    else none
  match v with
  | some d => if d < base then some d else none
  | none => none

/-- Longest prefix of digit values in the given base. -/
def takeDigits (base : Nat) : List Char → List Nat
  | [] => []
  | c :: rest =>
    match digitVal base c with
    | some d => d :: takeDigits base rest
    | none => []

/-- Numeric value of a digit-value list, most significant first. -/
def digitsVal (base : Nat) (ds : List Nat) : Nat :=
  ds.foldl (fun a d => a * base + d) 0

/-- JavaScript `parseInt(s)` (no explicit radix): skip leading whitespace,
read an optional sign, auto-detect a `0x`/`0X` hexadecimal prefix, then read
the longest digit prefix; `none` models `NaN`.  (IEEE-754 rounding of huge
digit strings is not modelled; the program only compares the result with `0`
and `totalPages`.) -/
def parseIntJS (s : List Char) : Option Int :=
  let s1 := s.dropWhile isWS
  let signAndRest : Int × List Char :=
    match s1 with
    | '-' :: t => (-1, t)
    | '+' :: t => (1, t)
    | _ => (1, s1)
  let baseAndRest : Nat × List Char :=
    match signAndRest.2 with
    | '0' :: 'x' :: t => (16, t)
    | '0' :: 'X' :: t => (16, t)
    | _ => (10, signAndRest.2)
  match takeDigits baseAndRest.1 baseAndRest.2 with
  | [] => none
  | ds => some (signAndRest.1 * (digitsVal baseAndRest.1 ds : Int))

/-- The integer interval `[a, b]` as a list (`spanAux a n` is
`[a, a+1, ..., a+n-1]`). -/
def spanAux (a : Int) : Nat → List Int
  | 0 => []
  | n + 1 => a :: spanAux (a + 1) n

/-- The integers from `a` to `b` inclusive, empty when `b < a`.  This is the
`for (let i = start; i <= end; i++) pages.push(i)` loop of `parsePageRanges`
and the "integer span" of a Range. -/
def spanList (a b : Int) : List Int :=
  spanAux a (b + 1 - a).toNat

/-- Insert an integer into a `≤`-sorted list, keeping it sorted. -/
def insertSorted (x : Int) : List Int → List Int
  | [] => [x]
  | y :: ys => if x ≤ y then x :: y :: ys else y :: insertSorted x ys

/-- Ascending numeric sort; models `array.sort((a, b) => a - b)`. -/
def sortInts (l : List Int) : List Int :=
  l.foldr insertSorted []

/-- Deduplication keeping first occurrences, with an accumulator of already
seen elements; models iteration order of `new Set(pages)`. -/
def dedupeAux (seen : List Int) : List Int → List Int
  | [] => []
  | x :: xs => if x ∈ seen then dedupeAux seen xs else x :: dedupeAux (x :: seen) xs

/-- `[...new Set(pages)]`: deduplicate, keeping the first occurrence of each
element. -/
def dedupe (l : List Int) : List Int :=
  dedupeAux [] l

/-- Contribution of one (already trimmed) comma-delimited token, translated
from the loop body of `parsePageRanges`: a token containing a hyphen is split
on `-`, its first two fields are trimmed and parsed (`const [start, end] =
range.split('-').map(n => parseInt(n.trim()))` parses every field but
destructures only the first two), and contributes `start..end` when both
parse, `start > 0`, `end <= totalPages` and `start <= end`; any other token
is parsed whole and contributes its value when in `1..totalPages`. -/
def tokenPages (totalPages : Int) (tok : List Char) : List Int :=
  if tok.contains '-' then
    let fields := splitOnChar '-' tok
    match parseIntJS (trimChars (fields.getD 0 [])),
          parseIntJS (trimChars (fields.getD 1 [])) with
    | some s, some e =>
      if 0 < s ∧ e ≤ totalPages ∧ s ≤ e then spanList s e else []
    | _, _ => []
  else
    match parseIntJS tok with
    | some p => if 0 < p ∧ p ≤ totalPages then [p] else []
    | none => []

/-- `parsePageRanges` on a character list: split on commas, trim each token,
collect every token's pages in order, then deduplicate and sort ascending
(`[...new Set(pages)].sort((a, b) => a - b)`). -/
def parsePageRangesL (totalPages : Int) (rangeStr : List Char) : List Int :=
  let toks := (splitOnChar ',' rangeStr).map trimChars
  sortInts (dedupe (toks.map (tokenPages totalPages)).flatten)

/-- The page-range parser of the split component (`parsePageRanges` in
`src/unnamed/part_000`). -/
def parsePageRanges (totalPages : Int) (rangeStr : String) : List Int :=
  parsePageRangesL totalPages rangeStr.data

/-- The range rule applied to two endpoint fields: trim and parse both, and
contribute `start..end` when both parse, `start > 0`, `end <= totalPages` and
`start <= end`. -/
def rangeFieldPages (totalPages : Int) (f1 f2 : List Char) : List Int :=
  match parseIntJS (trimChars f1), parseIntJS (trimChars f2) with
  | some s, some e =>
    if 0 < s ∧ e ≤ totalPages ∧ s ≤ e then spanList s e else []
  | _, _ => []

/-- The single-integer rule applied to a token: parse it and contribute its
value when it is in `1..totalPages`. -/
def singleFieldPages (totalPages : Int) (tok : List Char) : List Int :=
  match parseIntJS tok with
  | some p => if 0 < p ∧ p ≤ totalPages then [p] else []
  | none => []

/-- Modelled from the spec: the accept/drop rules of section 4.1, read with
the spec's token grammar.  A token is either a single integer literal or two
integer literals separated by one hyphen; "parses as an integer" is read as
JavaScript `parseInt` (the code's notion).  A token splitting into three or
more hyphen-separated fields is outside the grammar and is dropped. -/
def specTokenPages (totalPages : Int) (tok : List Char) : List Int :=
  match splitOnChar '-' tok with
  | [f] => singleFieldPages totalPages f
  | [f1, f2] => rangeFieldPages totalPages f1 f2
  | _ => []

/-- Modelled from the spec: `parse` as dictated by the spec's accept/drop
rules (tokens outside the token grammar dropped). -/
def parseSpecRanges (totalPages : Int) (rangeStr : String) : List Int :=
  let toks := (splitOnChar ',' rangeStr.data).map trimChars
  sortInts (dedupe (toks.map (specTokenPages totalPages)).flatten)

/-- Per-token accept/drop rules amended to match the code on tokens with two
or more hyphens: such a token takes its first two hyphen-separated fields as
the range endpoints and ignores the remaining fields. -/
def specTokenPagesAmended (totalPages : Int) (tok : List Char) : List Int :=
  match splitOnChar '-' tok with
  | [f] => singleFieldPages totalPages f
  | f1 :: f2 :: _ => rangeFieldPages totalPages f1 f2
  | [] => []

/-- The amended spec-side parser: like `parseSpecRanges` but with the
first-two-fields rule for multi-hyphen tokens. -/
def parseSpecRangesAmended (totalPages : Int) (rangeStr : String) : List Int :=
  let toks := (splitOnChar ',' rangeStr.data).map trimChars
  sortInts (dedupe (toks.map (specTokenPagesAmended totalPages)).flatten)

/-- One step state of the grouping loop of `createSplitDocuments`: the closed
ranges so far and the currently open range.  `groupGo tp pages isFirst prev
ranges current` runs the `sortedPages.forEach((page, index) => ...)` body on
the remaining `pages`; `isFirst` is `index === 0` and `prev` carries
`sortedPages[index - 1]` (the previously iterated element, updated even when
an out-of-range page was skipped by the early `return`). -/
def groupGo (totalPages : Int) :
    List Int → Bool → Int → List (List Int) → List Int → List (List Int)
  | [], _, _, ranges, currentRange =>
    if currentRange.isEmpty then ranges else ranges ++ [currentRange]
  | page :: rest, isFirst, prev, ranges, currentRange =>
    if page - 1 < 0 ∨ totalPages ≤ page - 1 then
      groupGo totalPages rest false page ranges currentRange
    else if isFirst ∨ page ≠ prev + 1 then
      groupGo totalPages rest false page
        (if currentRange.isEmpty then ranges else ranges ++ [currentRange]) [page]
    else
      groupGo totalPages rest false page ranges (currentRange ++ [page])

/-- The consecutive-page grouping of `createSplitDocuments`
(`src/utils/downloadUtils.ts`): sort the requested pages, skip the
out-of-range ones, and group consecutive pages into ranges. -/
def groupConsecutive (totalPages : Int) (pageNumbers : List Int) : List (List Int) :=
  groupGo totalPages (sortInts pageNumbers) true 0 [] []

/-- The spec's Range view of a produced group: `(range[0],
range[range.length - 1])`.  Groups are never empty; the default is never
read. -/
def toRangePair (g : List Int) : Int × Int :=
  (g.headD 0, g.getLastD 0)

/-- The spec's Compactor on the code: group consecutive pages and view each
group as a `(start, end)` Range. -/
def compactRanges (totalPages : Int) (selection : List Int) : List (Int × Int) :=
  (groupConsecutive totalPages selection).map toRangePair

/-- Concatenation of the integer spans of a Range sequence. -/
def flattenRanges (rs : List (Int × Int)) : List Int :=
  (rs.map (fun r => spanList r.1 r.2)).flatten

/-- Number of non-consecutive adjacent pairs ("breaks") in a list. -/
def countBreaks : List Int → Nat
  | [] => 0
  | [_] => 0
  | a :: b :: t => (if b = a + 1 then 0 else 1) + countBreaks (b :: t)

/-- Reference form of the grouping loop on a strictly ascending in-bounds
list: the open range is `spanList a b` and each new element either extends it
or closes it. -/
def runGo (a b : Int) : List Int → List (List Int)
  | [] => [spanList a b]
  | x :: xs => if x = b + 1 then runGo a x xs else spanList a b :: runGo x x xs

/-- Reference compaction: split a strictly ascending list into its maximal
consecutive runs. -/
def chopRuns : List Int → List (List Int)
  | [] => []
  | x :: xs => runGo x x xs

/-- The per-range file naming of `createSplitDocuments`: substitute the first
occurrence of the placeholder by the single page number for a one-page range
and by `start-end` otherwise. -/
def splitFileName (namingPattern : String) (range : List Int) : String :=
  if range.length = 1 then
    ⟨replaceFirstL "{n}".data (toString (range.headD 0)).data namingPattern.data⟩
  else
    ⟨replaceFirstL "{n}".data
      (toString (range.headD 0) ++ "-" ++ toString (range.getLastD 0)).data
      namingPattern.data⟩

/-- One output document of the split operation: its file name and the 0-based
page indices copied into it (`range.map(p => p - 1)` passed to `copyPages`);
the PDF bytes produced by the external library are represented by those
indices. -/
structure SplitDoc where
  name : String
  pageIndices : List Int
  deriving Repr, DecidableEq

/-- The PDF branch of `createSplitDocuments`
(`src/utils/downloadUtils.ts`): group the requested pages into consecutive
ranges, and produce one named document per range, in range order
(`Promise.all(ranges.map(...))` preserves order). -/
def createSplitDocumentsPdf (totalPages : Int) (pageNumbers : List Int)
    (namingPattern : String) : List SplitDoc :=
  (groupConsecutive totalPages pageNumbers).map (fun range =>
    { name := splitFileName namingPattern range ++ ".pdf"
      pageIndices := range.map (fun p => p - 1) })

/-- A JavaScript `Blob`: its byte content and MIME type. -/
structure JsBlob where
  data : List Nat
  type : String
  deriving Repr, DecidableEq

/-- The PDF compression chain of `createProcessedDocument`
(`src/utils/downloadUtils.ts`).  External `pdf-lib` interactions are
parameters: `pdfLoad` is the outcome of `PDFDocument.load`, and `save1` ..
`save4` are the byte outcomes of the four successive save attempts (each
`Except.error` models a thrown exception anywhere while producing that
attempt, which the surrounding `try`/`catch` turns into the original file).
A later attempt is consulted only when the previous one succeeded without
reducing the size, mirroring the chain of
`if (compressedPdfBytes.length >= arrayBuffer.byteLength)` reassignments; if
the final bytes are still not smaller, the original is returned. -/
def compressPdfChain (arrayBuffer : List Nat) (fileType : String)
    (pdfLoad : Except Unit Unit) (save1 save2 save3 save4 : Except Unit (List Nat)) :
    JsBlob :=
  match pdfLoad with
  | .error _ => ⟨arrayBuffer, fileType⟩
  | .ok _ =>
    match save1 with
    | .error _ => ⟨arrayBuffer, fileType⟩
    | .ok b1 =>
      if b1.length < arrayBuffer.length then ⟨b1, "application/pdf"⟩
      else
        match save2 with
        | .error _ => ⟨arrayBuffer, fileType⟩
        | .ok b2 =>
          if b2.length < arrayBuffer.length then ⟨b2, "application/pdf"⟩
          else
            match save3 with
            | .error _ => ⟨arrayBuffer, fileType⟩
            | .ok b3 =>
              if b3.length < arrayBuffer.length then ⟨b3, "application/pdf"⟩
              else
                match save4 with
                | .error _ => ⟨arrayBuffer, fileType⟩
                | .ok b4 =>
                  if b4.length < arrayBuffer.length then ⟨b4, "application/pdf"⟩
                  else ⟨arrayBuffer, fileType⟩

/-- `createProcessedDocument` (`src/utils/downloadUtils.ts`): with no
compression level the original blob is returned; a `pdf` extension enters the
compression chain; an image extension delegates to the canvas re-encoding
(modelled by `imageResult`, `none` standing for the load-failure / null-blob
fallbacks that return the original); anything else returns the original. -/
def createProcessedDocument (arrayBuffer : List Nat) (fileType : String)
    (fileExtension : Option String) (compressionLevel : Option String)
    (pdfLoad : Except Unit Unit) (save1 save2 save3 save4 : Except Unit (List Nat))
    (imageResult : Option JsBlob) : JsBlob :=
  match compressionLevel with
  | none => ⟨arrayBuffer, fileType⟩
  | some _ =>
    if fileExtension = some "pdf" then
      compressPdfChain arrayBuffer fileType pdfLoad save1 save2 save3 save4
    else if fileExtension = some "jpg" ∨ fileExtension = some "jpeg" ∨
        fileExtension = some "png" then
      match imageResult with
      | some blob => blob
      | none => ⟨arrayBuffer, fileType⟩
    else ⟨arrayBuffer, fileType⟩

/-! ## Lemmas about integer spans -/

theorem spanAux_snoc (a : Int) (n : Nat) :
    spanAux a (n + 1) = spanAux a n ++ [a + n] := by
  induction n generalizing a with
  | zero => simp [spanAux]
  | succ m ih =>
    rw [spanAux, ih (a + 1), spanAux]
    have h : a + 1 + (m : Int) = a + ((m : Int) + 1) := by ring
    simp [h]

theorem mem_spanAux {x a : Int} {n : Nat} :
    x ∈ spanAux a n ↔ a ≤ x ∧ x < a + n := by
  induction n generalizing a with
  | zero => simp [spanAux]
  | succ m ih =>
    simp [spanAux, ih]
    omega

theorem mem_spanList {x a b : Int} : x ∈ spanList a b ↔ a ≤ x ∧ x ≤ b := by
  rw [spanList, mem_spanAux]
  omega

theorem spanList_eq_cons {a b : Int} (h : a ≤ b) :
    spanList a b = a :: spanList (a + 1) b := by
  rw [spanList, spanList]
  have h1 : (b + 1 - a).toNat = (b + 1 - (a + 1)).toNat + 1 := by omega
  rw [h1, spanAux]

theorem spanList_self (a : Int) : spanList a a = [a] := by
  rw [spanList]
  have h : (a + 1 - a).toNat = 1 := by omega
  rw [h, spanAux, spanAux]

theorem spanList_snoc {a b : Int} (h : a ≤ b) :
    spanList a b ++ [b + 1] = spanList a (b + 1) := by
  rw [spanList, spanList]
  have h1 : (b + 1 + 1 - a).toNat = (b + 1 - a).toNat + 1 := by omega
  rw [h1, spanAux_snoc]
  have h2 : a + ((b + 1 - a).toNat : Int) = b + 1 := by omega
  rw [h2]

theorem spanList_ne_nil {a b : Int} (h : a ≤ b) : spanList a b ≠ [] := by
  rw [spanList_eq_cons h]
  simp

theorem spanList_headD {a b : Int} (h : a ≤ b) (d : Int) :
    (spanList a b).headD d = a := by
  rw [spanList_eq_cons h]
  rfl

theorem spanList_getLastD {a b : Int} (h : a ≤ b) (d : Int) :
    (spanList a b).getLastD d = b := by
  have h1 : (b + 1 - a).toNat = (b - a).toNat + 1 := by omega
  rw [spanList, h1, spanAux_snoc]
  have h2 : a + ((b - a).toNat : Int) = b := by omega
  rw [h2]
  simp

theorem spanList_length {a b : Int} :
    (spanList a b).length = (b + 1 - a).toNat := by
  rw [spanList]
  induction (b + 1 - a).toNat generalizing a with
  | zero => rfl
  | succ m ih => simp [spanAux, ih]

/-! ## Lemmas about `sortInts` and `dedupe` -/

theorem insertSorted_perm (x : Int) (l : List Int) :
    List.Perm (insertSorted x l) (x :: l) := by
  induction l with
  | nil => rfl
  | cons y ys ih =>
    rw [insertSorted]
    split
    · rfl
    · exact ((ih.cons y).trans (List.Perm.swap x y ys))

theorem sortInts_perm (l : List Int) : List.Perm (sortInts l) l := by
  induction l with
  | nil => rfl
  | cons x xs ih =>
    exact (insertSorted_perm x (sortInts xs)).trans (ih.cons x)

theorem insertSorted_pairwise {x : Int} {l : List Int}
    (h : l.Pairwise (· ≤ ·)) : (insertSorted x l).Pairwise (· ≤ ·) := by
  induction l with
  | nil => simp [insertSorted]
  | cons y ys ih =>
    rw [insertSorted]
    rcases List.pairwise_cons.mp h with ⟨hy, hys⟩
    split
    · rename_i hxy
      refine List.pairwise_cons.mpr ⟨?_, h⟩
      intro z hz
      rcases List.mem_cons.mp hz with rfl | hz'
      · exact hxy
      · exact le_trans hxy (hy z hz')
    · rename_i hxy
      refine List.pairwise_cons.mpr ⟨?_, ih hys⟩
      intro z hz
      have hz' := (insertSorted_perm x ys).mem_iff.mp hz
      rcases List.mem_cons.mp hz' with rfl | hz''
      · exact le_of_lt (lt_of_not_le hxy)
      · exact hy z hz''

theorem sortInts_pairwise (l : List Int) : (sortInts l).Pairwise (· ≤ ·) := by
  induction l with
  | nil => simp [sortInts]
  | cons x xs ih => exact insertSorted_pairwise ih

theorem sortInts_strict {l : List Int} (h : l.Nodup) :
    (sortInts l).Pairwise (· < ·) := by
  have hnd : (sortInts l).Nodup := (sortInts_perm l).nodup_iff.mpr h
  exact ((sortInts_pairwise l).and hnd).imp
    (fun hab => lt_of_le_of_ne hab.1 hab.2)

theorem sortInts_eq_self {l : List Int} (h : l.Pairwise (· ≤ ·)) :
    sortInts l = l := by
  induction l with
  | nil => rfl
  | cons x xs ih =>
    rcases List.pairwise_cons.mp h with ⟨hx, hxs⟩
    show insertSorted x (sortInts xs) = x :: xs
    rw [ih hxs]
    cases xs with
    | nil => rfl
    | cons y ys =>
      rw [insertSorted, if_pos (hx y (List.mem_cons_self y ys))]

theorem mem_dedupeAux {x : Int} {seen l : List Int} :
    x ∈ dedupeAux seen l ↔ x ∈ l ∧ x ∉ seen := by
  induction l generalizing seen with
  | nil => simp [dedupeAux]
  | cons y ys ih =>
    rw [dedupeAux]
    split
    · rename_i hy
      rw [ih]
      simp only [List.mem_cons]
      constructor
      · exact fun ⟨h1, h2⟩ => ⟨Or.inr h1, h2⟩
      · rintro ⟨rfl | h1, h2⟩
        · exact absurd hy h2
        · exact ⟨h1, h2⟩
    · rename_i hy
      simp only [List.mem_cons, ih, List.mem_cons]
      constructor
      · rintro (rfl | ⟨h1, h2⟩)
        · exact ⟨Or.inl rfl, hy⟩
        · exact ⟨Or.inr h1, fun hs => h2 (Or.inr hs)⟩
      · rintro ⟨rfl | h1, h2⟩
        · exact Or.inl rfl
        · by_cases hxy : x = y
          · exact Or.inl hxy
          · refine Or.inr ⟨h1, ?_⟩
            intro hs
            rcases hs with rfl | hs'
            · exact hxy rfl
            · exact h2 hs'

theorem nodup_dedupeAux (seen l : List Int) : (dedupeAux seen l).Nodup := by
  induction l generalizing seen with
  | nil => simp [dedupeAux]
  | cons y ys ih =>
    rw [dedupeAux]
    split
    · exact ih seen
    · refine List.nodup_cons.mpr ⟨?_, ih (y :: seen)⟩
      intro hmem
      exact (mem_dedupeAux.mp hmem).2 (List.mem_cons_self y seen)

theorem mem_dedupe {x : Int} {l : List Int} : x ∈ dedupe l ↔ x ∈ l := by
  rw [dedupe, mem_dedupeAux]
  simp

theorem nodup_dedupe (l : List Int) : (dedupe l).Nodup :=
  nodup_dedupeAux [] l

/-! ## Lemmas about `splitOnChar` -/

theorem splitOnChar_ne_nil (sep : Char) (s : List Char) :
    splitOnChar sep s ≠ [] := by
  cases s with
  | nil => simp [splitOnChar]
  | cons c rest =>
    rw [splitOnChar]
    split
    · simp
    · split <;> simp

theorem mem_of_mem_splitOnChar {sep : Char} {s tok : List Char} {c : Char}
    (htok : tok ∈ splitOnChar sep s) (hc : c ∈ tok) : c ∈ s ∧ c ≠ sep := by
  induction s generalizing tok with
  | nil =>
    rw [splitOnChar] at htok
    rcases List.mem_singleton.mp htok with rfl
    exact absurd hc (List.not_mem_nil c)
  | cons a rest ih =>
    rw [splitOnChar] at htok
    split at htok
    · rename_i ha
      rcases List.mem_cons.mp htok with rfl | htok'
      · exact absurd hc (List.not_mem_nil c)
      · rcases ih htok' hc with ⟨h1, h2⟩
        exact ⟨List.mem_cons_of_mem a h1, h2⟩
    · rename_i ha
      rcases hsplit : splitOnChar sep rest with _ | ⟨t, ts⟩
      · exact absurd hsplit (splitOnChar_ne_nil sep rest)
      · rw [hsplit] at htok
        rcases List.mem_cons.mp htok with rfl | htok'
        · rcases List.mem_cons.mp hc with rfl | hc'
          · exact ⟨List.mem_cons_self c rest, ha⟩
          · rcases ih (hsplit ▸ List.mem_cons_self t ts) hc' with ⟨h1, h2⟩
            exact ⟨List.mem_cons_of_mem a h1, h2⟩
        · rcases ih (hsplit ▸ List.mem_cons_of_mem t htok') hc with ⟨h1, h2⟩
          exact ⟨List.mem_cons_of_mem a h1, h2⟩

theorem splitOnChar_of_not_mem {sep : Char} {tok : List Char}
    (h : sep ∉ tok) : splitOnChar sep tok = [tok] := by
  induction tok with
  | nil => rfl
  | cons c rest ih =>
    rw [splitOnChar]
    rw [List.mem_cons, not_or] at h
    rw [if_neg (fun hc => h.1 hc.symm), ih h.2]

theorem splitOnChar_of_mem {sep : Char} {tok : List Char} (h : sep ∈ tok) :
    ∃ f1 f2 fs, splitOnChar sep tok = f1 :: f2 :: fs := by
  induction tok with
  | nil => exact absurd h (List.not_mem_nil sep)
  | cons c rest ih =>
    rw [splitOnChar]
    by_cases hc : c = sep
    · rcases hsplit : splitOnChar sep rest with _ | ⟨t, ts⟩
      · exact absurd hsplit (splitOnChar_ne_nil sep rest)
      · exact ⟨[], t, ts, by rw [if_pos hc]⟩
    · have hrest : sep ∈ rest := by
        rcases List.mem_cons.mp h with rfl | h'
        · exact absurd rfl hc
        · exact h'
      rcases ih hrest with ⟨f1, f2, fs, hsplit⟩
      exact ⟨c :: f1, f2, fs, by rw [if_neg hc, hsplit]⟩

/-! ## Lemmas about the parser -/

theorem singleFieldPages_bounds {tp p : Int} {tok : List Char}
    (hp : p ∈ singleFieldPages tp tok) : 1 ≤ p ∧ p ≤ tp := by
  rw [singleFieldPages] at hp
  split at hp
  · split at hp
    · rcases List.mem_singleton.mp hp with rfl
      rename_i q hq
      omega
    · exact absurd hp (List.not_mem_nil p)
  · exact absurd hp (List.not_mem_nil p)

theorem rangeFieldPages_bounds {tp p : Int} {f1 f2 : List Char}
    (hp : p ∈ rangeFieldPages tp f1 f2) : 1 ≤ p ∧ p ≤ tp := by
  rw [rangeFieldPages] at hp
  split at hp
  · split at hp
    · rename_i s e hcond
      rw [mem_spanList] at hp
      omega
    · exact absurd hp (List.not_mem_nil p)
  · exact absurd hp (List.not_mem_nil p)

theorem tokenPages_eq (tp : Int) (tok : List Char) :
    tokenPages tp tok =
      if tok.contains '-' then
        rangeFieldPages tp ((splitOnChar '-' tok).getD 0 [])
          ((splitOnChar '-' tok).getD 1 [])
      else singleFieldPages tp tok := rfl

theorem tokenPages_bounds {tp p : Int} {tok : List Char}
    (hp : p ∈ tokenPages tp tok) : 1 ≤ p ∧ p ≤ tp := by
  rw [tokenPages_eq] at hp
  split at hp
  · exact rangeFieldPages_bounds hp
  · exact singleFieldPages_bounds hp

theorem parsePageRangesL_pairwise (tp : Int) (cs : List Char) :
    (parsePageRangesL tp cs).Pairwise (· < ·) :=
  sortInts_strict (nodup_dedupe _)

theorem parsePageRangesL_bounds {tp p : Int} {cs : List Char}
    (hp : p ∈ parsePageRangesL tp cs) : 1 ≤ p ∧ p ≤ tp := by
  rw [parsePageRangesL] at hp
  have h1 := (sortInts_perm _).mem_iff.mp hp
  have h2 := mem_dedupe.mp h1
  rcases List.mem_flatten.mp h2 with ⟨l, hl, hpl⟩
  rcases List.mem_map.mp hl with ⟨tok, _, rfl⟩
  exact tokenPages_bounds hpl

theorem trimChars_of_all_ws {s : List Char} (h : ∀ c ∈ s, isWS c = true) :
    trimChars s = [] := by
  rw [trimChars]
  rw [List.dropWhile_eq_nil_iff.mpr h]
  rfl

theorem tokenPages_nil (tp : Int) : tokenPages tp [] = [] := rfl

theorem parse_of_ws_comma {tp : Int} {cs : List Char}
    (h : ∀ c ∈ cs, isWS c = true ∨ c = ',') : parsePageRangesL tp cs = [] := by
  rw [parsePageRangesL]
  have hflat :
      (((splitOnChar ',' cs).map trimChars).map (tokenPages tp)).flatten = [] := by
    rw [List.flatten_eq_nil_iff]
    intro l hl
    rcases List.mem_map.mp hl with ⟨tok', htok', rfl⟩
    rcases List.mem_map.mp htok' with ⟨tok, htok, rfl⟩
    have htrim : trimChars tok = [] := by
      apply trimChars_of_all_ws
      intro c hc
      rcases mem_of_mem_splitOnChar htok hc with ⟨hcs, hne⟩
      rcases h c hcs with hws | hcomma
      · exact hws
      · exact absurd hcomma hne
    rw [htrim, tokenPages_nil]
  rw [hflat]
  rfl

theorem contains_eq_true_of_mem {tok : List Char} {c : Char} (h : c ∈ tok) :
    tok.contains c = true := by
  simpa using h

theorem mem_of_contains_eq_true {tok : List Char} {c : Char}
    (h : tok.contains c = true) : c ∈ tok := by
  simpa using h

theorem tokenPages_eq_amended (tp : Int) (tok : List Char) :
    tokenPages tp tok = specTokenPagesAmended tp tok := by
  by_cases h : '-' ∈ tok
  · rcases splitOnChar_of_mem h with ⟨f1, f2, fs, hsplit⟩
    rw [tokenPages_eq, if_pos (contains_eq_true_of_mem h), specTokenPagesAmended,
      hsplit]
    rfl
  · rw [tokenPages_eq, specTokenPagesAmended, splitOnChar_of_not_mem h]
    rw [if_neg (fun hc => h (mem_of_contains_eq_true hc))]

theorem parse_eq_amended (tp : Int) (s : String) :
    parsePageRanges tp s = parseSpecRangesAmended tp s := by
  rw [parsePageRanges, parsePageRangesL, parseSpecRangesAmended]
  have hmap : ((splitOnChar ',' s.data).map trimChars).map (tokenPages tp) =
      ((splitOnChar ',' s.data).map trimChars).map (specTokenPagesAmended tp) :=
    List.map_congr_left (fun tok _ => tokenPages_eq_amended tp tok)
  rw [hmap]

theorem firstTwoFields_of_multi {tp : Int} {t f1 f2 : List Char}
    {fs : List (List Char)} (hsplit : splitOnChar '-' t = f1 :: f2 :: fs) :
    tokenPages tp t = rangeFieldPages tp f1 f2 := by
  have hmem : '-' ∈ t := by
    by_contra hnot
    rw [splitOnChar_of_not_mem hnot] at hsplit
    exact absurd hsplit (by simp)
  rw [tokenPages_eq, if_pos (contains_eq_true_of_mem hmem), hsplit]
  rfl

/-! ## Lemmas about the grouping loop and reference compaction -/

theorem runGo_flatten {a b : Int} (h : a ≤ b) (s : List Int) :
    (runGo a b s).flatten = spanList a b ++ s := by
  induction s generalizing a b with
  | nil => simp [runGo]
  | cons x xs ih =>
    rw [runGo]
    split
    · rename_i hx
      rw [ih (by omega : a ≤ x)]
      subst hx
      rw [← spanList_snoc h]
      simp
    · rw [List.flatten_cons, ih (le_refl x), spanList_self]
      simp

theorem runGo_shape {a b : Int} (h : a ≤ b) (s : List Int) :
    ∀ g ∈ runGo a b s, ∃ u v, u ≤ v ∧ g = spanList u v := by
  induction s generalizing a b with
  | nil =>
    intro g hg
    rw [runGo] at hg
    rcases List.mem_singleton.mp hg with rfl
    exact ⟨a, b, h, rfl⟩
  | cons x xs ih =>
    intro g hg
    rw [runGo] at hg
    split at hg
    · exact ih (by rename_i hx; omega) g hg
    · rcases List.mem_cons.mp hg with rfl | hg'
      · exact ⟨a, b, h, rfl⟩
      · exact ih (le_refl x) g hg'

theorem runGo_pairs {a b : Int} (s : List Int)
    (hchain : List.Chain' (· < ·) (b :: s)) (h : a ≤ b) :
    ∃ e tail, (runGo a b s).map toRangePair = (a, e) :: tail ∧
      List.Chain' (fun p q : Int × Int => p.2 + 1 < q.1) ((a, e) :: tail) := by
  induction s generalizing a b with
  | nil =>
    refine ⟨b, [], ?_, List.chain'_singleton _⟩
    rw [runGo, List.map_singleton, toRangePair, spanList_headD h, spanList_getLastD h]
  | cons x xs ih =>
    have hbx : b < x := (List.chain'_cons.mp hchain).1
    have hchain' : List.Chain' (· < ·) (x :: xs) := (List.chain'_cons.mp hchain).2
    rw [runGo]
    split
    · rename_i hx
      exact ih hchain' (by omega)
    · rename_i hx
      rcases ih hchain' (le_refl x) with ⟨e, tail, heq, hch⟩
      refine ⟨b, (x, e) :: tail, ?_, ?_⟩
      · rw [List.map_cons, heq, toRangePair, spanList_headD h, spanList_getLastD h]
      · exact List.chain'_cons.mpr ⟨by omega, hch⟩

theorem runGo_length (a b : Int) (s : List Int) :
    (runGo a b s).length = countBreaks (b :: s) + 1 := by
  induction s generalizing a b with
  | nil => rfl
  | cons x xs ih =>
    rw [runGo, countBreaks]
    split
    · rw [ih a x]
      omega
    · rw [List.length_cons, ih x x]
      omega

theorem chopRuns_flatten (s : List Int) : (chopRuns s).flatten = s := by
  cases s with
  | nil => rfl
  | cons x xs =>
    rw [chopRuns, runGo_flatten (le_refl x), spanList_self]
    rfl

theorem chopRuns_shape (s : List Int) :
    ∀ g ∈ chopRuns s, ∃ u v, u ≤ v ∧ g = spanList u v := by
  cases s with
  | nil => intro g hg; exact absurd hg (List.not_mem_nil g)
  | cons x xs => exact runGo_shape (le_refl x) xs

theorem groupGo_eq_runGo {tp a b : Int} {s : List Int} (ranges : List (List Int))
    (hchain : List.Chain' (· < ·) (b :: s)) (hb : ∀ p ∈ s, 1 ≤ p ∧ p ≤ tp)
    (hab : a ≤ b) :
    groupGo tp s false b ranges (spanList a b) = ranges ++ runGo a b s := by
  induction s generalizing a b ranges with
  | nil =>
    rw [groupGo, runGo]
    rw [if_neg (by simp [List.isEmpty_iff, spanList_ne_nil hab])]
  | cons x xs ih =>
    have hx := hb x (List.mem_cons_self x xs)
    have hbx : b < x := (List.chain'_cons.mp hchain).1
    have hchain' : List.Chain' (· < ·) (x :: xs) := (List.chain'_cons.mp hchain).2
    have hb' : ∀ p ∈ xs, 1 ≤ p ∧ p ≤ tp :=
      fun p hp => hb p (List.mem_cons_of_mem x hp)
    rw [groupGo, if_neg (by omega : ¬(x - 1 < 0 ∨ tp ≤ x - 1))]
    by_cases hcons : x = b + 1
    · rw [if_neg (by simp [hcons] : ¬((false : Bool) = true ∨ x ≠ b + 1))]
      subst hcons
      rw [spanList_snoc hab, runGo, if_pos rfl]
      exact ih ranges hchain' hb' (by omega)
    · rw [if_pos (Or.inr hcons)]
      rw [if_neg (by simp [List.isEmpty_iff, spanList_ne_nil hab])]
      have hsingle : [x] = spanList x x := (spanList_self x).symm
      rw [hsingle, ih (ranges ++ [spanList a b]) hchain' hb' (le_refl x)]
      rw [runGo, if_neg hcons]
      simp

theorem groupConsecutive_eq_chopRuns {tp : Int} {s : List Int}
    (hchain : List.Chain' (· < ·) s) (hb : ∀ p ∈ s, 1 ≤ p ∧ p ≤ tp) :
    groupConsecutive tp s = chopRuns s := by
  have hpw : s.Pairwise (· ≤ ·) :=
    (List.chain'_iff_pairwise.mp hchain).imp le_of_lt
  rw [groupConsecutive, sortInts_eq_self hpw]
  cases s with
  | nil => rfl
  | cons x xs =>
    have hx := hb x (List.mem_cons_self x xs)
    rw [groupGo, if_neg (by omega : ¬(x - 1 < 0 ∨ tp ≤ x - 1))]
    rw [if_pos (Or.inl rfl)]
    rw [if_pos (by simp [List.isEmpty_iff])]
    have hsingle : [x] = spanList x x := (spanList_self x).symm
    rw [hsingle, groupGo_eq_runGo [] hchain
      (fun p hp => hb p (List.mem_cons_of_mem x hp)) (le_refl x)]
    rfl

/-! ## Lemmas about `compactRanges` -/

theorem toRangePair_spanList {u v : Int} (h : u ≤ v) :
    toRangePair (spanList u v) = (u, v) := by
  rw [toRangePair, spanList_headD h, spanList_getLastD h]

theorem flattenRanges_map_toRangePair {gs : List (List Int)}
    (h : ∀ g ∈ gs, ∃ u v, u ≤ v ∧ g = spanList u v) :
    flattenRanges (gs.map toRangePair) = gs.flatten := by
  rw [flattenRanges, List.map_map]
  have hmap : gs.map ((fun r => spanList r.1 r.2) ∘ toRangePair) = gs.map id := by
    apply List.map_congr_left
    intro g hg
    rcases h g hg with ⟨u, v, huv, rfl⟩
    simp only [Function.comp_apply, toRangePair_spanList huv, id]
  rw [hmap, List.map_id]

theorem compactRanges_flatten {tp : Int} {s : List Int}
    (hchain : List.Chain' (· < ·) s) (hb : ∀ p ∈ s, 1 ≤ p ∧ p ≤ tp) :
    flattenRanges (compactRanges tp s) = s := by
  rw [compactRanges, groupConsecutive_eq_chopRuns hchain hb,
    flattenRanges_map_toRangePair (chopRuns_shape s), chopRuns_flatten]

theorem compactRanges_gaps {tp : Int} {s : List Int}
    (hchain : List.Chain' (· < ·) s) (hb : ∀ p ∈ s, 1 ≤ p ∧ p ≤ tp) :
    List.Chain' (fun p q : Int × Int => p.2 + 1 < q.1) (compactRanges tp s) := by
  rw [compactRanges, groupConsecutive_eq_chopRuns hchain hb]
  cases s with
  | nil => exact List.chain'_nil
  | cons x xs =>
    rcases runGo_pairs xs hchain (le_refl x) with ⟨e, tail, heq, hch⟩
    rw [chopRuns, heq]
    exact hch

theorem compactRanges_valid {tp : Int} {s : List Int}
    (hchain : List.Chain' (· < ·) s) (hb : ∀ p ∈ s, 1 ≤ p ∧ p ≤ tp) :
    ∀ r ∈ compactRanges tp s, r.1 ≤ r.2 := by
  rw [compactRanges, groupConsecutive_eq_chopRuns hchain hb]
  intro r hr
  rcases List.mem_map.mp hr with ⟨g, hg, rfl⟩
  rcases chopRuns_shape s g hg with ⟨u, v, huv, rfl⟩
  rw [toRangePair_spanList huv]
  exact huv

theorem compactRanges_length {tp x : Int} {xs : List Int}
    (hchain : List.Chain' (· < ·) (x :: xs))
    (hb : ∀ p ∈ x :: xs, 1 ≤ p ∧ p ≤ tp) :
    (compactRanges tp (x :: xs)).length = countBreaks (x :: xs) + 1 := by
  rw [compactRanges, groupConsecutive_eq_chopRuns hchain hb, List.length_map,
    chopRuns, runGo_length]

/-! ## Minimality: any span decomposition has at least `countBreaks + 1` parts -/

theorem countBreaks_cons (c : Int) (l : List Int) :
    countBreaks (c :: l) =
      (match l with
       | [] => 0
       | d :: _ => if d = c + 1 then 0 else 1) + countBreaks l := by
  cases l <;> rfl

theorem countBreaks_spanAux (a : Int) (n : Nat) :
    countBreaks (spanAux a n) = 0 := by
  induction n generalizing a with
  | zero => rfl
  | succ m ih =>
    cases m with
    | zero => rfl
    | succ k =>
      rw [spanAux, spanAux, countBreaks, if_pos rfl, ← spanAux]
      rw [ih (a + 1)]

theorem countBreaks_spanList (a b : Int) : countBreaks (spanList a b) = 0 :=
  countBreaks_spanAux a _

theorem countBreaks_append_le (u t : List Int) :
    countBreaks (u ++ t) ≤ countBreaks u + countBreaks t + 1 := by
  induction u with
  | nil => simp [countBreaks]
  | cons c u' ih =>
    cases u' with
    | nil =>
      cases t with
      | nil => simp [countBreaks]
      | cons d t' =>
        have e1 : ([c] ++ (d :: t')) = c :: d :: t' := rfl
        have e2 : countBreaks (c :: d :: t') =
            (if d = c + 1 then 0 else 1) + countBreaks (d :: t') := rfl
        have e3 : countBreaks ([c] : List Int) = 0 := rfl
        rw [e1, e2, e3]
        split <;> omega
    | cons d u'' =>
      have e1 : countBreaks (c :: d :: (u'' ++ t)) =
          (if d = c + 1 then 0 else 1) + countBreaks (d :: (u'' ++ t)) := rfl
      have e2 : countBreaks (c :: d :: u'') =
          (if d = c + 1 then 0 else 1) + countBreaks (d :: u'') := rfl
      rw [List.cons_append, List.cons_append, e1, e2]
      have hih := ih
      rw [List.cons_append] at hih
      split <;> omega

theorem flattenRanges_nil_of_valid {rs : List (Int × Int)}
    (hv : ∀ r ∈ rs, r.1 ≤ r.2) (h : flattenRanges rs = []) : rs = [] := by
  cases rs with
  | nil => rfl
  | cons r rest =>
    rw [flattenRanges, List.map_cons, List.flatten_cons] at h
    have hne : spanList r.1 r.2 ≠ [] :=
      spanList_ne_nil (hv r (List.mem_cons_self r rest))
    rcases List.append_eq_nil.mp h with ⟨h1, _⟩
    exact absurd h1 hne

theorem decomposition_lower_bound (rs : List (Int × Int))
    (hv : ∀ r ∈ rs, r.1 ≤ r.2) (hne : flattenRanges rs ≠ []) :
    countBreaks (flattenRanges rs) + 1 ≤ rs.length := by
  induction rs with
  | nil => exact absurd rfl hne
  | cons r rest ih =>
    rw [flattenRanges, List.map_cons, List.flatten_cons, ← flattenRanges]
    by_cases hrest : flattenRanges rest = []
    · rw [hrest, List.append_nil, countBreaks_spanList]
      simp
    · have hv' : ∀ q ∈ rest, q.1 ≤ q.2 :=
        fun q hq => hv q (List.mem_cons_of_mem r hq)
      have hih := ih hv' hrest
      have happ := countBreaks_append_le (spanList r.1 r.2) (flattenRanges rest)
      rw [countBreaks_spanList] at happ
      rw [List.length_cons]
      omega

/-! ## Counting pages across groups -/

theorem countP_mem_le_count_flatten (p : Int) (gs : List (List Int)) :
    gs.countP (fun g => decide (p ∈ g)) ≤ gs.flatten.count p := by
  induction gs with
  | nil => simp
  | cons g gs' ih =>
    rw [List.countP_cons, List.flatten_cons, List.count_append]
    by_cases hp : p ∈ g
    · have h1 : 0 < g.count p := List.count_pos_iff.mpr hp
      have h2 : decide (p ∈ g) = true := by simpa using hp
      rw [h2, if_pos rfl]
      omega
    · have h2 : decide (p ∈ g) = false := by simpa using hp
      rw [h2, if_neg (by simp)]
      omega

theorem one_le_countP_of_mem_flatten {p : Int} {gs : List (List Int)}
    (hp : p ∈ gs.flatten) : 1 ≤ gs.countP (fun g => decide (p ∈ g)) := by
  rcases List.mem_flatten.mp hp with ⟨g, hg, hpg⟩
  exact List.countP_pos_iff.mpr ⟨g, hg, by simpa⟩

theorem groupConsecutive_eq_chopRuns_sort {tp : Int} {s : List Int}
    (hnd : s.Nodup) (hb : ∀ p ∈ s, 1 ≤ p ∧ p ≤ tp) :
    groupConsecutive tp s = chopRuns (sortInts s) := by
  have h1 : groupConsecutive tp s = groupConsecutive tp (sortInts s) := by
    rw [groupConsecutive, groupConsecutive, sortInts_eq_self (sortInts_pairwise s)]
  rw [h1]
  exact groupConsecutive_eq_chopRuns
    (List.chain'_iff_pairwise.mpr (sortInts_strict hnd))
    (fun p hp => hb p ((sortInts_perm s).subset hp))

theorem compactRanges_gaps_of_nodup {tp : Int} {s : List Int} (hnd : s.Nodup)
    (hb : ∀ p ∈ s, 1 ≤ p ∧ p ≤ tp) :
    List.Chain' (fun p q : Int × Int => p.2 + 1 < q.1) (compactRanges tp s) := by
  rw [compactRanges, groupConsecutive_eq_chopRuns_sort hnd hb]
  rcases hsort : sortInts s with _ | ⟨x, xs⟩
  · simp [chopRuns]
  · have hchain : List.Chain' (· < ·) (x :: xs) :=
      hsort ▸ List.chain'_iff_pairwise.mpr (sortInts_strict hnd)
    rcases runGo_pairs xs hchain (le_refl x) with ⟨e, tail, heq, hch⟩
    rw [chopRuns, heq]
    exact hch

/-! ## Lemmas about first-occurrence replacement and naming -/

theorem startsWithL_nil (l : List Char) : startsWithL l [] = true := by
  cases l <;> rfl

theorem startsWithL_append (u v : List Char) : startsWithL (u ++ v) u = true := by
  induction u with
  | nil => exact startsWithL_nil v
  | cons c cs ih => simp [startsWithL, ih]

theorem startsWithL_three (c d e : Char) (L : List Char) :
    startsWithL (c :: d :: e :: L) "{n}".data =
      (decide (c = '{') && (decide (d = 'n') && (decide (e = '}') &&
        startsWithL L []))) := rfl

theorem replaceFirst_at (rep pre post : List Char)
    (hpre : hasSubstr "{n}".data pre = false) :
    replaceFirstL "{n}".data rep (pre ++ "{n}".data ++ post) =
      pre ++ rep ++ post := by
  induction pre with
  | nil =>
    show replaceFirstL "{n}".data rep ('{' :: 'n' :: '}' :: post) = rep ++ post
    have hcond : startsWithL ('{' :: 'n' :: '}' :: post) "{n}".data = true :=
      startsWithL_append "{n}".data post
    rw [replaceFirstL, if_pos hcond]
    rfl
  | cons c pre' ih =>
    have hboth := hpre
    rw [hasSubstr, Bool.or_eq_false_iff] at hboth
    rcases hboth with ⟨hs, hsub⟩
    have hne : startsWithL (c :: (pre' ++ "{n}".data ++ post)) "{n}".data
        = false := by
      cases pre' with
      | nil =>
        show startsWithL (c :: '{' :: 'n' :: '}' :: post) "{n}".data = false
        rw [startsWithL_three]
        rw [show decide (('{' : Char) = 'n') = false from rfl]
        simp
      | cons d pre'' =>
        cases pre'' with
        | nil =>
          show startsWithL (c :: d :: '{' :: 'n' :: '}' :: post) "{n}".data = false
          rw [startsWithL_three]
          rw [show decide (('{' : Char) = '}') = false from rfl]
          simp
        | cons e pre''' =>
          simp only [List.cons_append]
          rw [startsWithL_three, startsWithL_nil]
          rw [startsWithL_three, startsWithL_nil] at hs
          exact hs
    show replaceFirstL "{n}".data rep (c :: (pre' ++ "{n}".data ++ post)) =
      c :: (pre' ++ rep ++ post)
    rw [replaceFirstL, if_neg (by rw [hne]; simp), ih hsub]

theorem splitFileName_spanList (a b : Int) (pre post : List Char) (hab : a ≤ b)
    (hpre : hasSubstr "{n}".data pre = false) :
    splitFileName ⟨pre ++ "{n}".data ++ post⟩ (spanList a b) =
      ⟨pre ++ (if a = b then toString a
               else toString a ++ "-" ++ toString b).data ++ post⟩ := by
  by_cases hab' : a = b
  · subst hab'
    rw [if_pos rfl]
    rw [splitFileName, spanList_self]
    rw [if_pos (by rfl : ([a] : List Int).length = 1)]
    apply congrArg String.mk
    show replaceFirstL "{n}".data (toString a).data (pre ++ "{n}".data ++ post) =
      pre ++ (toString a).data ++ post
    exact replaceFirst_at _ pre post hpre
  · rw [if_neg hab']
    rw [splitFileName]
    rw [if_neg (by rw [spanList_length]; omega)]
    apply congrArg String.mk
    show replaceFirstL "{n}".data
        (toString ((spanList a b).headD 0) ++ "-" ++
          toString ((spanList a b).getLastD 0)).data
        (pre ++ "{n}".data ++ post) =
      pre ++ (toString a ++ "-" ++ toString b).data ++ post
    rw [spanList_headD hab, spanList_getLastD hab]
    exact replaceFirst_at _ pre post hpre

/-! ## Claim theorems -/

/-- C1 (counterexample): the claim says `parse` accepts tokens exactly as the
spec's accept/drop rules dictate, and the spec's token grammar admits only a
single integer or two integers separated by one hyphen, so the spec drops
`"1-3-5"`; the code instead accepts it through its first two hyphen fields
and yields `[1, 2, 3]`. -/
theorem parse_spec_counterexample :
    parsePageRanges 10 "1-3-5" = [1, 2, 3] ∧ parseSpecRanges 10 "1-3-5" = [] :=
  ⟨by decide, by decide⟩

/-- C1 (amended): for every `rangeStr` and `totalPages ≥ 1`, `parse` follows
the spec's per-token accept/drop rules amended so that a token with two or
more hyphens takes its first two hyphen-separated fields as the range
endpoints and ignores the rest ("parses as an integer" read as JavaScript
`parseInt`). -/
theorem parse_eq_spec_amended (tp : Int) (_htp : 1 ≤ tp) (s : String) :
    parsePageRanges tp s = parseSpecRangesAmended tp s :=
  parse_eq_amended tp s

/-- Witness for `parse_eq_spec_amended` at `totalPages = 10`,
`rangeStr = "1-3,5,7-9"`. -/
theorem parse_eq_spec_amended_witness :
    1 ≤ (10 : Int) ∧
      parsePageRanges 10 "1-3,5,7-9" = parseSpecRangesAmended 10 "1-3,5,7-9" :=
  ⟨by decide, parse_eq_spec_amended 10 (by decide) "1-3,5,7-9"⟩

/-- C2: for every `rangeStr` and `totalPages ≥ 1`, the list returned by
`parse` is strictly ascending (hence duplicate-free) and every element `p`
satisfies `1 ≤ p ≤ totalPages`. -/
theorem parse_sorted_bounded (tp : Int) (_htp : 1 ≤ tp) (rangeStr : String) :
    (parsePageRanges tp rangeStr).Pairwise (· < ·) ∧
      ∀ p ∈ parsePageRanges tp rangeStr, 1 ≤ p ∧ p ≤ tp :=
  ⟨parsePageRangesL_pairwise tp rangeStr.data,
    fun _ hp => parsePageRangesL_bounds hp⟩

/-- Witness for `parse_sorted_bounded` at `totalPages = 10`,
`rangeStr = "1-3,5,7-9"`. -/
theorem parse_sorted_bounded_witness :
    1 ≤ (10 : Int) ∧
      ((parsePageRanges 10 "1-3,5,7-9").Pairwise (· < ·) ∧
        ∀ p ∈ parsePageRanges 10 "1-3,5,7-9", 1 ≤ p ∧ p ≤ 10) :=
  ⟨by decide, parse_sorted_bounded 10 (by decide) "1-3,5,7-9"⟩

/-- C3: on a strictly ascending selection of in-document pages, the
compaction of `createSplitDocuments` returns valid Ranges whose concatenated
spans reproduce the input exactly, whose adjacent Ranges are separated by a
genuine non-consecutive jump, and which form a minimal such decomposition;
in particular `compact [1,2,3,5,7,8,9] = [(1,3),(5,5),(7,9)]` and
`compact [] = []`. -/
theorem compact_minimal_decomposition :
    (∀ (tp : Int) (s : List Int), s.Pairwise (· < ·) →
        (∀ p ∈ s, 1 ≤ p ∧ p ≤ tp) →
        flattenRanges (compactRanges tp s) = s ∧
        (∀ r ∈ compactRanges tp s, r.1 ≤ r.2) ∧
        List.Chain' (fun p q : Int × Int => p.2 + 1 < q.1) (compactRanges tp s) ∧
        ∀ rs : List (Int × Int), (∀ r ∈ rs, r.1 ≤ r.2) →
          flattenRanges rs = s → (compactRanges tp s).length ≤ rs.length) ∧
    compactRanges 10 [1, 2, 3, 5, 7, 8, 9] = [(1, 3), (5, 5), (7, 9)] ∧
    compactRanges 10 ([] : List Int) = [] := by
  refine ⟨?_, by decide, rfl⟩
  intro tp s hpw hb
  have hchain : List.Chain' (· < ·) s := List.chain'_iff_pairwise.mpr hpw
  refine ⟨compactRanges_flatten hchain hb, compactRanges_valid hchain hb,
    compactRanges_gaps hchain hb, ?_⟩
  intro rs hv hflat
  cases s with
  | nil =>
    have hnil : compactRanges tp ([] : List Int) = [] := rfl
    rw [hnil]
    simp
  | cons x xs =>
    rw [compactRanges_length hchain hb]
    have hne : flattenRanges rs ≠ [] := by
      rw [hflat]
      simp
    have hlb := decomposition_lower_bound rs hv hne
    rw [hflat] at hlb
    exact hlb

/-- Witness for `compact_minimal_decomposition` at `totalPages = 10`,
selection `[1,2,3,5,7,8,9]`. -/
theorem compact_minimal_witness :
    (([1, 2, 3, 5, 7, 8, 9] : List Int).Pairwise (· < ·) ∧
      ∀ p ∈ ([1, 2, 3, 5, 7, 8, 9] : List Int), 1 ≤ p ∧ p ≤ 10) ∧
    (flattenRanges (compactRanges 10 [1, 2, 3, 5, 7, 8, 9]) =
        [1, 2, 3, 5, 7, 8, 9] ∧
      (∀ r ∈ compactRanges 10 [1, 2, 3, 5, 7, 8, 9], r.1 ≤ r.2) ∧
      List.Chain' (fun p q : Int × Int => p.2 + 1 < q.1)
        (compactRanges 10 [1, 2, 3, 5, 7, 8, 9]) ∧
      ∀ rs : List (Int × Int), (∀ r ∈ rs, r.1 ≤ r.2) →
        flattenRanges rs = [1, 2, 3, 5, 7, 8, 9] →
        (compactRanges 10 [1, 2, 3, 5, 7, 8, 9]).length ≤ rs.length) :=
  ⟨⟨by decide, by decide⟩,
    compact_minimal_decomposition.1 10 [1, 2, 3, 5, 7, 8, 9]
      (by decide) (by decide)⟩

/-- C4: `parse` is a total function (the embedding is a plain function, and
no code path of the source can throw: every token destructured in the hyphen
branch has at least two fields, and `parseInt` returns `NaN` rather than
failing); moreover any string consisting only of whitespace and commas — in
particular the empty string — parses to the empty list. -/
theorem parse_garbage_empty (tp : Int) (s : String)
    (h : ∀ c ∈ s.data, isWS c = true ∨ c = ',') :
    parsePageRanges tp s = [] :=
  parse_of_ws_comma h

/-- Witness for `parse_garbage_empty` at `totalPages = 7`, input `" ,, ,"`. -/
theorem parse_garbage_empty_witness :
    (∀ c ∈ (" ,, ," : String).data, isWS c = true ∨ c = ',') ∧
      parsePageRanges 7 " ,, ," = [] :=
  ⟨by decide, parse_garbage_empty 7 " ,, ," (by decide)⟩

/-- C5: for a duplicate-free selection of in-document pages, the split
operation produces exactly one output document per Range of the compacted
selection (each containing exactly that Range's 0-based page indices), and
the documents appear in the ascending order of those Ranges (adjacent Ranges
are even separated by a gap). -/
theorem split_one_doc_per_range (tp : Int) (s : List Int) (pattern : String)
    (hnd : s.Nodup) (hb : ∀ p ∈ s, 1 ≤ p ∧ p ≤ tp) :
    createSplitDocumentsPdf tp s pattern =
      (compactRanges tp s).map (fun r =>
        { name := splitFileName pattern (spanList r.1 r.2) ++ ".pdf"
          pageIndices := (spanList r.1 r.2).map (fun p => p - 1) }) ∧
    List.Chain' (fun p q : Int × Int => p.2 + 1 < q.1) (compactRanges tp s) := by
  constructor
  · rw [createSplitDocumentsPdf, compactRanges,
      groupConsecutive_eq_chopRuns_sort hnd hb, List.map_map]
    apply List.map_congr_left
    intro g hg
    rcases chopRuns_shape _ g hg with ⟨u, v, huv, rfl⟩
    simp only [Function.comp_apply, toRangePair_spanList huv]
  · exact compactRanges_gaps_of_nodup hnd hb

/-- Witness for `split_one_doc_per_range` at `totalPages = 10`,
selection `[3,1,2,7]`, pattern `"doc{n}"`. -/
theorem split_one_doc_per_range_witness :
    (([3, 1, 2, 7] : List Int).Nodup ∧
      ∀ p ∈ ([3, 1, 2, 7] : List Int), 1 ≤ p ∧ p ≤ 10) ∧
    (createSplitDocumentsPdf 10 [3, 1, 2, 7] "doc{n}" =
        (compactRanges 10 [3, 1, 2, 7]).map (fun r =>
          { name := splitFileName "doc{n}" (spanList r.1 r.2) ++ ".pdf"
            pageIndices := (spanList r.1 r.2).map (fun p => p - 1) }) ∧
      List.Chain' (fun p q : Int × Int => p.2 + 1 < q.1)
        (compactRanges 10 [3, 1, 2, 7])) :=
  ⟨⟨by decide, by decide⟩,
    split_one_doc_per_range 10 [3, 1, 2, 7] "doc{n}" (by decide) (by decide)⟩

/-- C6: compaction is idempotent — re-expanding the Ranges of `compact s`
into their full integer spans and compacting again yields the same Range
sequence. -/
theorem compact_idempotent (tp : Int) (s : List Int) (hpw : s.Pairwise (· < ·))
    (hb : ∀ p ∈ s, 1 ≤ p ∧ p ≤ tp) :
    compactRanges tp (flattenRanges (compactRanges tp s)) = compactRanges tp s := by
  rw [compactRanges_flatten (List.chain'_iff_pairwise.mpr hpw) hb]

/-- Witness for `compact_idempotent` at `totalPages = 10`,
selection `[1,2,3,5,7,8,9]`. -/
theorem compact_idempotent_witness :
    (([1, 2, 3, 5, 7, 8, 9] : List Int).Pairwise (· < ·) ∧
      ∀ p ∈ ([1, 2, 3, 5, 7, 8, 9] : List Int), 1 ≤ p ∧ p ≤ 10) ∧
    compactRanges 10 (flattenRanges (compactRanges 10 [1, 2, 3, 5, 7, 8, 9])) =
      compactRanges 10 [1, 2, 3, 5, 7, 8, 9] :=
  ⟨⟨by decide, by decide⟩,
    compact_idempotent 10 [1, 2, 3, 5, 7, 8, 9] (by decide) (by decide)⟩

/-- C7: for every Range `(a, b)` with `a ≤ b` and every pattern containing
the placeholder (written as `pre ++ "{n}" ++ post` with no earlier
occurrence in `pre`), the output name substitutes the placeholder with the
single page number when `a = b` and with `"a-b"` otherwise; in particular
`name((7,9), "part{n}") = "part7-9"` and `name((5,5), "part{n}") = "part5"`. -/
theorem split_naming :
    (∀ (a b : Int) (pre post : List Char), a ≤ b →
        hasSubstr "{n}".data pre = false →
        splitFileName ⟨pre ++ "{n}".data ++ post⟩ (spanList a b) =
          ⟨pre ++ (if a = b then toString a
                   else toString a ++ "-" ++ toString b).data ++ post⟩) ∧
    splitFileName "part{n}" (spanList 7 9) = "part7-9" ∧
    splitFileName "part{n}" (spanList 5 5) = "part5" :=
  ⟨fun a b pre post hab hpre => splitFileName_spanList a b pre post hab hpre,
    by decide, by decide⟩

/-- Witness for `split_naming` at Range `(2,4)`, pattern `"part{n}!"`. -/
theorem split_naming_witness :
    ((2 : Int) ≤ 4 ∧ hasSubstr "{n}".data "part".data = false) ∧
    splitFileName ⟨"part".data ++ "{n}".data ++ "!".data⟩ (spanList 2 4) =
      ⟨"part".data ++ (if (2 : Int) = 4 then toString (2 : Int)
        else toString (2 : Int) ++ "-" ++ toString (4 : Int)).data ++ "!".data⟩ :=
  ⟨⟨by decide, by decide⟩,
    split_naming.1 2 4 "part".data "!".data (by decide) (by decide)⟩

/-- C8: for a PDF input, if every compression attempt either throws or
produces a byte sequence at least as large as the original,
`createProcessedDocument` returns a blob containing exactly the original
file's bytes. -/
theorem compress_fallback_original (arrayBuffer : List Nat) (fileType : String)
    (compressionLevel : Option String) (pdfLoad : Except Unit Unit)
    (save1 save2 save3 save4 : Except Unit (List Nat))
    (imageResult : Option JsBlob)
    (h : ∀ sv ∈ [save1, save2, save3, save4], ∀ b, sv = Except.ok b →
      arrayBuffer.length ≤ b.length) :
    (createProcessedDocument arrayBuffer fileType (some "pdf") compressionLevel
      pdfLoad save1 save2 save3 save4 imageResult).data = arrayBuffer := by
  have h1 := h save1 (by simp)
  have h2 := h save2 (by simp)
  have h3 := h save3 (by simp)
  have h4 := h save4 (by simp)
  cases compressionLevel with
  | none => rfl
  | some lvl =>
    cases pdfLoad with
    | error e => rfl
    | ok u =>
      cases save1 with
      | error e => rfl
      | ok b1 =>
        have hn1 : ¬(b1.length < arrayBuffer.length) := by
          have := h1 b1 rfl
          omega
        cases save2 with
        | error e => simp [createProcessedDocument, compressPdfChain, hn1]
        | ok b2 =>
          have hn2 : ¬(b2.length < arrayBuffer.length) := by
            have := h2 b2 rfl
            omega
          cases save3 with
          | error e =>
            simp [createProcessedDocument, compressPdfChain, hn1, hn2]
          | ok b3 =>
            have hn3 : ¬(b3.length < arrayBuffer.length) := by
              have := h3 b3 rfl
              omega
            cases save4 with
            | error e =>
              simp [createProcessedDocument, compressPdfChain, hn1, hn2, hn3]
            | ok b4 =>
              have hn4 : ¬(b4.length < arrayBuffer.length) := by
                have := h4 b4 rfl
                omega
              simp [createProcessedDocument, compressPdfChain, hn1, hn2, hn3, hn4]

/-- Witness for `compress_fallback_original`: original bytes `[1,2,3]`, all
four save attempts throwing. -/
theorem compress_fallback_witness :
    (∀ sv ∈ ([Except.error (), Except.error (), Except.error (),
        Except.error ()] : List (Except Unit (List Nat))), ∀ b,
        sv = Except.ok b → ([1, 2, 3] : List Nat).length ≤ b.length) ∧
    (createProcessedDocument [1, 2, 3] "application/pdf" (some "pdf")
      (some "medium") (Except.ok ()) (Except.error ()) (Except.error ())
      (Except.error ()) (Except.error ()) none).data = [1, 2, 3] := by
  have hyp : ∀ sv ∈ ([Except.error (), Except.error (), Except.error (),
      Except.error ()] : List (Except Unit (List Nat))), ∀ b,
      sv = Except.ok b → ([1, 2, 3] : List Nat).length ≤ b.length := by
    intro sv hsv b hb
    have hsv' : sv = Except.error () := by simpa using hsv
    rw [hsv'] at hb
    exact absurd hb (by simp)
  exact ⟨hyp, compress_fallback_original [1, 2, 3] "application/pdf"
    (some "medium") (Except.ok ()) (Except.error ()) (Except.error ())
    (Except.error ()) (Except.error ()) none hyp⟩

/-- C9: `createSplitDocuments` sorts but does not deduplicate its pages: the
duplicated input `[2,2]` produces two Ranges that both contain page 2, while
for every duplicate-free in-bounds selection every selected page belongs to
exactly one Range. -/
theorem duplicate_page_two_ranges :
    (groupConsecutive 5 [2, 2] = [[2], [2]] ∧
      (groupConsecutive 5 [2, 2]).countP (fun g => decide ((2 : Int) ∈ g)) = 2) ∧
    ∀ (tp : Int) (s : List Int), s.Nodup → (∀ p ∈ s, 1 ≤ p ∧ p ≤ tp) →
      ∀ p ∈ s, (groupConsecutive tp s).countP (fun g => decide (p ∈ g)) = 1 := by
  refine ⟨⟨by decide, by decide⟩, ?_⟩
  intro tp s hnd hb p hp
  rw [groupConsecutive_eq_chopRuns_sort hnd hb]
  have hflat : (chopRuns (sortInts s)).flatten = sortInts s := chopRuns_flatten _
  have hmem : p ∈ sortInts s := (sortInts_perm s).mem_iff.mpr hp
  have hndsort : (sortInts s).Nodup := (sortInts_perm s).nodup_iff.mpr hnd
  have hcount : (sortInts s).count p = 1 := List.count_eq_one_of_mem hndsort hmem
  have hle := countP_mem_le_count_flatten p (chopRuns (sortInts s))
  rw [hflat, hcount] at hle
  have hge : 1 ≤ (chopRuns (sortInts s)).countP (fun g => decide (p ∈ g)) :=
    one_le_countP_of_mem_flatten (by rw [hflat]; exact hmem)
  omega

/-- Witness for `duplicate_page_two_ranges` (the duplicate-free part) at
`totalPages = 5`, selection `[1,3]`, page `3`. -/
theorem duplicate_page_two_ranges_witness :
    (([1, 3] : List Int).Nodup ∧
      (∀ p ∈ ([1, 3] : List Int), 1 ≤ p ∧ p ≤ 5) ∧
      (3 : Int) ∈ ([1, 3] : List Int)) ∧
    (groupConsecutive 5 [1, 3]).countP (fun g => decide ((3 : Int) ∈ g)) = 1 :=
  ⟨⟨by decide, by decide, by decide⟩,
    duplicate_page_two_ranges.2 5 [1, 3] (by decide) (by decide) 3 (by decide)⟩

/-- C10: a token with two or more hyphens is parsed through its first two
hyphen-separated fields only (the remaining fields are silently ignored), so
`parse("1-3-5", 10) = [1,2,3]` even though the spec's token grammar drops
that token. -/
theorem multi_hyphen_first_two_fields :
    (∀ (tp : Int) (t f1 f2 : List Char) (fs : List (List Char)),
        splitOnChar '-' t = f1 :: f2 :: fs →
        tokenPages tp t = rangeFieldPages tp f1 f2) ∧
    parsePageRanges 10 "1-3-5" = [1, 2, 3] ∧
    parseSpecRanges 10 "1-3-5" = [] :=
  ⟨fun _ _ _ _ _ h => firstTwoFields_of_multi h, by decide, by decide⟩

/-- Witness for `multi_hyphen_first_two_fields` at the token `"1-3-5"`. -/
theorem multi_hyphen_first_two_fields_witness :
    splitOnChar '-' "1-3-5".data = [['1'], ['3'], ['5']] ∧
    tokenPages 10 "1-3-5".data = rangeFieldPages 10 ['1'] ['3'] :=
  ⟨by decide,
    multi_hyphen_first_two_fields.1 10 "1-3-5".data ['1'] ['3'] [['5']]
      (by decide)⟩
